import Mathlib

/-!
Verification of the layer/block normalization library `dxfapi.py`.

The document model of the external CAD collaborator (ezdxf) is embedded
shallowly: a document owns layers, block definitions, line-style and
text-style tables and a modelspace entity list.  Every function below is a
direct translation of the corresponding Python function in `dxfapi.py`
(line references in the doc comments); machine floats of the source are
embedded as rationals, Python exceptions as `Except`, and the unbounded
recursion of the depth-first search as fuel-indexed recursion together with
a proof that the chosen fuel can never run out.
-/

namespace Dxf

/-- A layer of the document model: unique name, display color and the
stored line-weight (the source stores `int(weight * 10)`). -/
structure Layer where
  name : String
  color : Int
  lineweight : Int
  deriving Repr, DecidableEq

/-- A line-style (linetype) definition of the document model. -/
structure Linetype where
  name : String
  pattern : List ℚ
  description : String
  deriving Repr, DecidableEq

/-- A text-style definition of the document model. -/
structure Textstyle where
  name : String
  font : String
  deriving Repr, DecidableEq

/-- A typed geometric entity.  `blockName` is the referenced block of an
INSERT entity (`entity.dxf.name` in the source); `is_closed` and
`vertices` belong to polyline entities.  Planar float coordinates of the
source are embedded as integer pairs (their values are never computed
with, only moved). -/
structure Entity where
  dxftype : String
  layer : String
  color : Int
  lineweight : Int
  linetype : String
  blockName : String
  is_closed : Bool
  vertices : List (Int × Int)
  deriving Repr, DecidableEq

/-- The document model: layer table, block table, linetype table,
text-style table and the modelspace entity list. -/
structure Doc where
  layers : List Layer
  blocks : List (String × List Entity)
  linetypes : List Linetype
  styles : List Textstyle
  modelspace : List Entity
  deriving Repr, DecidableEq

/-- Python `int()` on a rational: truncation toward zero. -/
def pyInt (q : ℚ) : ℤ := if 0 ≤ q then ⌊q⌋ else ⌈q⌉

/-- `list_current_layers` (dxfapi.py lines 19-26). -/
def list_current_layers (doc : Doc) : List String :=
  doc.layers.map (·.name)

/-- `create_layer` (dxfapi.py lines 29-39): no-op when a layer of that name
exists, otherwise adds the layer with the given color (the collaborator's
default stored line-weight of a fresh layer is embedded as `-3`, ezdxf's
`LINEWEIGHT_DEFAULT`). -/
def create_layer (doc : Doc) (dest_layer : String) (dest_color : Int) : Doc :=
  if dest_layer ∈ list_current_layers doc then doc
  else { doc with layers := doc.layers ++ [{ name := dest_layer, color := dest_color, lineweight := -3 }] }

/-- `change_lineweight` (dxfapi.py lines 42-53): every layer whose name
matches gets stored line-weight `int(weight * 10)`. -/
def change_lineweight (doc : Doc) (dest_layer : String) (dest_lineweight : ℚ) : Doc :=
  { doc with layers := doc.layers.map (fun layer =>
      if layer.name = dest_layer then { layer with lineweight := pyInt (dest_lineweight * 10) } else layer) }

/-- The layer names `remove_unused_layers` treats as used, after the first
reserved-name append (dxfapi.py lines 63-67): the layers referenced by the
modelspace entities, with "Defpoints" appended when absent. -/
def used_with_defpoints (doc : Doc) : List String :=
  if "Defpoints" ∈ doc.modelspace.map (·.layer) then doc.modelspace.map (·.layer)
  else doc.modelspace.map (·.layer) ++ ["Defpoints"]

/-- The full used set of `remove_unused_layers` (dxfapi.py lines 63-69):
entity layers with "Defpoints" and "0" appended when absent. -/
def used_layer_names (doc : Doc) : List String :=
  if "0" ∈ used_with_defpoints doc then used_with_defpoints doc
  else used_with_defpoints doc ++ ["0"]

/-- `remove_unused_layers` (dxfapi.py lines 56-74): the used set is the
layers referenced by modelspace entities plus the two reserved names; every
other layer is removed one at a time. -/
def remove_unused_layers (doc : Doc) : Doc :=
  let all_layers := doc.layers.map (·.name)
  let unused := all_layers.filter (fun layer => layer ∉ used_layer_names doc)
  { doc with layers := unused.foldl (fun ls u => ls.filter (fun l => l.name ≠ u)) doc.layers }

/-- `change_layer` (dxfapi.py lines 77-88): move every modelspace entity
from `layer` to `dest_layer`. -/
def change_layer (msp : List Entity) (layer : String) (dest_layer : String) : List Entity :=
  msp.map (fun entity => if entity.layer = layer then { entity with layer := dest_layer } else entity)

section LayerLemmas

theorem foldl_filter_eq_filter_not_mem (us : List String) (ls : List Layer) :
    us.foldl (fun ls u => ls.filter (fun l => l.name ≠ u)) ls
      = ls.filter (fun l => l.name ∉ us) := by
  induction us generalizing ls with
  | nil => simp
  | cons u us ih =>
      simp only [List.foldl_cons, ih, List.filter_filter]
      apply List.filter_congr
      intro l _
      by_cases h1 : l.name = u <;> by_cases h2 : l.name ∈ us <;>
        simp [h1, h2]

/-- The layer list after pruning, as a single filter. -/
theorem remove_unused_layers_layers (doc : Doc) :
    (remove_unused_layers doc).layers
      = doc.layers.filter (fun l =>
          l.name ∉ (doc.layers.map (·.name)).filter
            (fun layer => layer ∉ used_layer_names doc)) := by
  simp only [remove_unused_layers]
  exact foldl_filter_eq_filter_not_mem _ _

theorem remove_unused_layers_modelspace (doc : Doc) :
    (remove_unused_layers doc).modelspace = doc.modelspace := rfl

theorem remove_unused_layers_eq_filter (doc : Doc) :
    (remove_unused_layers doc).layers
      = doc.layers.filter (fun l => l.name ∈ used_layer_names doc) := by
  rw [remove_unused_layers_layers]
  apply List.filter_congr
  intro l hl
  have hall : l.name ∈ doc.layers.map (·.name) := List.mem_map_of_mem _ hl
  by_cases hu : l.name ∈ used_layer_names doc <;> simp [List.mem_filter, hall, hu]

theorem used_layer_names_remove (doc : Doc) :
    used_layer_names (remove_unused_layers doc) = used_layer_names doc := rfl

theorem mem_used_layer_names_of_mem_layers (doc : Doc) (l : Layer)
    (h : l ∈ (remove_unused_layers doc).layers) : l.name ∈ used_layer_names doc := by
  rw [remove_unused_layers_eq_filter] at h
  exact of_decide_eq_true (List.mem_filter.mp h).2

theorem defpoints_mem_used (doc : Doc) : "Defpoints" ∈ used_layer_names doc := by
  have h1 : "Defpoints" ∈ used_with_defpoints doc := by
    rw [used_with_defpoints]
    split
    · assumption
    · exact List.mem_append_right _ (by simp)
  rw [used_layer_names]
  split
  · exact h1
  · exact List.mem_append_left _ h1

theorem zero_mem_used (doc : Doc) : "0" ∈ used_layer_names doc := by
  rw [used_layer_names]
  split
  · assumption
  · exact List.mem_append_right _ (by simp)

end LayerLemmas

/-- C8: `pruneUnusedLayers` (`remove_unused_layers`) is idempotent: with no
entity changes in between, the second call removes nothing and the document
(in particular its layer set) is unchanged. -/
theorem remove_unused_layers_idempotent (doc : Doc) :
    remove_unused_layers (remove_unused_layers doc) = remove_unused_layers doc := by
  have h2 : (remove_unused_layers (remove_unused_layers doc)).layers
      = (remove_unused_layers doc).layers := by
    rw [remove_unused_layers_eq_filter (remove_unused_layers doc),
      used_layer_names_remove, remove_unused_layers_eq_filter doc, List.filter_filter]
    apply List.filter_congr
    intro l _
    by_cases h : l.name ∈ used_layer_names doc <;> simp [h]
  show ({ remove_unused_layers doc with
      layers := (remove_unused_layers (remove_unused_layers doc)).layers } : Doc)
    = remove_unused_layers doc
  rw [h2]

/-- C9: the reserved layers "Defpoints" and "0" survive every
unused-layer pruning pass, even when no entity references them. -/
theorem reserved_layers_never_pruned (doc : Doc) (l : Layer)
    (hl : l ∈ doc.layers) (hres : l.name = "Defpoints" ∨ l.name = "0") :
    l ∈ (remove_unused_layers doc).layers := by
  rw [remove_unused_layers_eq_filter]
  apply List.mem_filter.mpr
  refine ⟨hl, decide_eq_true ?_⟩
  rcases hres with h | h <;> rw [h]
  · exact defpoints_mem_used doc
  · exact zero_mem_used doc

/-- Concrete document for the C9 witness: both reserved layers present,
zero entities. -/
def docReserved : Doc :=
  { layers := [{ name := "Defpoints", color := 7, lineweight := 0 },
               { name := "0", color := 7, lineweight := 0 }],
    blocks := [], linetypes := [], styles := [], modelspace := [] }

theorem reserved_layers_never_pruned_witness :
    ({ name := "Defpoints", color := 7, lineweight := 0 } : Layer) ∈ docReserved.layers ∧
    ({ name := "Defpoints", color := 7, lineweight := 0 } : Layer)
      ∈ (remove_unused_layers docReserved).layers ∧
    ({ name := "0", color := 7, lineweight := 0 } : Layer)
      ∈ (remove_unused_layers docReserved).layers := by
  refine ⟨by simp [docReserved], ?_, ?_⟩
  · exact reserved_layers_never_pruned docReserved _ (by simp [docReserved]) (Or.inl rfl)
  · exact reserved_layers_never_pruned docReserved _ (by simp [docReserved]) (Or.inr rfl)

section LineweightClaim

theorem map_fixed_of_forall {α : Type} (l : List α) (f : α → α)
    (h : ∀ x ∈ l, f x = x) : l.map f = l := by
  induction l with
  | nil => rfl
  | cons a l ih =>
      simp only [List.map_cons, h a (by simp), List.cons.injEq, true_and]
      exact ih (fun x hx => h x (by simp [hx]))

/-- C5 (amended): `setLineWeight` stores the truncation `⌊weight * 10⌋`
(not the rounding) on the unique layer with the given name, leaves every
other layer untouched, and is a no-op on the whole document when no layer
has that name. -/
theorem change_lineweight_spec (doc : Doc) (name : String) (w : ℚ) (hw : 0 ≤ w) :
    ((∀ l ∈ doc.layers, l.name ≠ name) → change_lineweight doc name w = doc) ∧
    (∀ l ∈ doc.layers, l.name = name →
      { l with lineweight := ⌊w * 10⌋ } ∈ (change_lineweight doc name w).layers) ∧
    (∀ l ∈ doc.layers, l.name ≠ name → l ∈ (change_lineweight doc name w).layers) ∧
    (change_lineweight doc name w).modelspace = doc.modelspace := by
  have hint : pyInt (w * 10) = ⌊w * 10⌋ := by
    simp only [pyInt, if_pos (by positivity : (0:ℚ) ≤ w * 10)]
  refine ⟨?_, ?_, ?_, rfl⟩
  · intro hno
    have hmap : doc.layers.map (fun layer =>
        if layer.name = name then { layer with lineweight := pyInt (w * 10) } else layer)
        = doc.layers := by
      apply map_fixed_of_forall
      intro l hl
      simp [hno l hl]
    simp only [change_lineweight, hmap]
  · intro l hl hname
    have := List.mem_map_of_mem (fun layer =>
        if layer.name = name then { layer with lineweight := pyInt (w * 10) } else layer) hl
    simpa [change_lineweight, hname, hint] using this
  · intro l hl hname
    have := List.mem_map_of_mem (fun layer =>
        if layer.name = name then { layer with lineweight := pyInt (w * 10) } else layer) hl
    simpa [change_lineweight, hname] using this

/-- Concrete document for the C5 theorems: a single layer "L". -/
def docLw : Doc :=
  { layers := [{ name := "L", color := 7, lineweight := 0 }],
    blocks := [], linetypes := [], styles := [], modelspace := [] }

theorem change_lineweight_spec_witness :
    (0:ℚ) ≤ 9/50 ∧
    ({ name := "L", color := 7, lineweight := ⌊(9:ℚ)/50 * 10⌋ } : Layer)
      ∈ (change_lineweight docLw "L" (9/50)).layers :=
  ⟨by norm_num,
    (change_lineweight_spec docLw "L" (9/50) (by norm_num)).2.1
      { name := "L", color := 7, lineweight := 0 } (by simp [docLw]) rfl⟩

/-- C5 counterexample: for weight 0.18 the code stores `int(1.8) = 1`,
while `round(0.18 * 10) = 2`; the stored value is not `round(weight * 10)`. -/
theorem change_lineweight_not_round :
    (change_lineweight docLw "L" (9/50)).layers
      = [{ name := "L", color := 7, lineweight := 1 }] ∧
    round ((9:ℚ)/50 * 10) = 2 ∧ (1 : ℤ) ≠ 2 := by
  refine ⟨?_, ?_, by decide⟩
  · have h1 : pyInt ((9:ℚ)/50 * 10) = 1 := by
      have h : ((9:ℚ)/50 * 10) = 9/5 := by norm_num
      have hfl : ⌊(9:ℚ)/5⌋ = 1 := by norm_num [Int.floor_eq_iff]
      rw [pyInt, h, if_pos (by norm_num : (0:ℚ) ≤ 9/5), hfl]
    simp [change_lineweight, docLw, h1]
  · have h : ((9:ℚ)/50 * 10) = 9/5 := by norm_num
    have hfl : ⌊(9:ℚ)/5 + 1/2⌋ = 2 := by norm_num [Int.floor_eq_iff]
    rw [h, round_eq, hfl]

end LineweightClaim

section StableSort

variable {α : Type} {κ : Type} [LinearOrder κ]

/-- Stable insertion of `x` into a key-sorted list: `x` goes before the
first element whose key is not smaller, so an earlier element precedes
later elements of equal key — the stability guarantee of Python's
`sorted`. -/
def pyInsert (key : α → κ) (x : α) : List α → List α
  | [] => [x]
  | y :: ys => if key x ≤ key y then x :: y :: ys else y :: pyInsert key x ys

/-- Stable sort by key, extensionally equal to Python's stable `sorted`. -/
def pySortBy (key : α → κ) : List α → List α
  | [] => []
  | x :: xs => pyInsert key x (pySortBy key xs)

theorem mem_pyInsert (key : α → κ) (x a : α) (l : List α) :
    a ∈ pyInsert key x l ↔ a = x ∨ a ∈ l := by
  induction l with
  | nil => simp [pyInsert]
  | cons y ys ih =>
      rw [pyInsert]
      split
      · simp
      · simp only [List.mem_cons, ih]
        tauto

theorem pyInsert_perm (key : α → κ) (x : α) (l : List α) :
    (pyInsert key x l).Perm (x :: l) := by
  induction l with
  | nil => simp [pyInsert]
  | cons y ys ih =>
      rw [pyInsert]
      split
      · exact List.Perm.refl _
      · exact (List.Perm.cons y ih).trans (List.Perm.swap x y ys)

theorem pySortBy_perm (key : α → κ) (l : List α) :
    (pySortBy key l).Perm l := by
  induction l with
  | nil => exact List.Perm.refl _
  | cons x xs ih =>
      exact (pyInsert_perm key x (pySortBy key xs)).trans (List.Perm.cons x ih)

theorem pairwise_pyInsert (key : α → κ) (x : α) (l : List α)
    (h : l.Pairwise (fun a b => key a ≤ key b)) :
    (pyInsert key x l).Pairwise (fun a b => key a ≤ key b) := by
  induction l with
  | nil => simp [pyInsert]
  | cons y ys ih =>
      rw [pyInsert]
      rcases List.pairwise_cons.mp h with ⟨hy, hys⟩
      split
      · rename_i hxy
        refine List.pairwise_cons.mpr ⟨?_, h⟩
        intro b hb
        rcases List.mem_cons.mp hb with rfl | hb
        · exact hxy
        · exact le_trans hxy (hy b hb)
      · rename_i hxy
        have hyx : key y ≤ key x := le_of_lt (lt_of_not_le hxy)
        refine List.pairwise_cons.mpr ⟨?_, ih hys⟩
        intro b hb
        rcases (mem_pyInsert key x b ys).mp hb with rfl | hb
        · exact hyx
        · exact hy b hb

theorem pairwise_pySortBy (key : α → κ) (l : List α) :
    (pySortBy key l).Pairwise (fun a b => key a ≤ key b) := by
  induction l with
  | nil => simp [pySortBy]
  | cons x xs ih => exact pairwise_pyInsert key x _ ih

theorem filter_pyInsert (key : α → κ) (x : α) (l : List α) (c : κ) :
    (pyInsert key x l).filter (fun a => key a = c)
      = if key x = c then x :: l.filter (fun a => key a = c)
        else l.filter (fun a => key a = c) := by
  induction l with
  | nil => by_cases h : key x = c <;> simp [pyInsert, h]
  | cons y ys ih =>
      rw [pyInsert]
      split
      · rename_i hxy
        by_cases h : key x = c <;> simp [List.filter_cons, h]
      · rename_i hxy
        have hylt : key y < key x := lt_of_not_le hxy
        by_cases h : key x = c
        · have hy : ¬ (key y = c) := by
            intro hyc
            exact absurd (hyc.trans h.symm) (ne_of_lt hylt)
          simp [List.filter_cons, ih, h, hy]
        · by_cases hy : key y = c <;> simp [List.filter_cons, ih, h, hy]

/-- Stability of the sort: within each equal-key class the sorted list
keeps the original order. -/
theorem filter_pySortBy (key : α → κ) (l : List α) (c : κ) :
    (pySortBy key l).filter (fun a => key a = c)
      = l.filter (fun a => key a = c) := by
  induction l with
  | nil => rfl
  | cons x xs ih =>
      rw [pySortBy, filter_pyInsert]
      by_cases h : key x = c <;> simp [List.filter_cons, h, ih]

end StableSort

section ExportClaim

/-- Lower-cased characters of a file name (python `f.lower()`). -/
def lowerChars (f : String) : List Char := f.data.map Char.toLower

/-- Python `f.lower().endswith(".dxf")` (dxfapi.py line 250). -/
def ends_with_dxf (f : String) : Bool :=
  (lowerChars f).reverse.take 4 == ['f', 'x', 'd', '.']

/-- Numeric value of a reversed digit run (least significant digit first). -/
def digitsVal : List Char → Nat
  | [] => 0
  | c :: cs => (c.toNat - '0'.toNat) + 10 * digitsVal cs

/-- The regex `_(\d+)\.dxf$` of dxfapi.py line 251: the trailing digit run
immediately before a literal ".dxf" suffix, non-empty and preceded by an
underscore; `none` when the file name has no parseable numeric suffix. -/
def suffix_key (f : String) : Option Nat :=
  match f.data.reverse with
  | 'f' :: 'x' :: 'd' :: '.' :: rest =>
      let ds := rest.takeWhile (fun c => c.isDigit)
      if ds.isEmpty then none
      else match rest.drop ds.length with
        | '_' :: _ => some (digitsVal ds)
        | _ => none
  | _ => none

/-- The sort key of dxfapi.py line 251 in a linear order: a parsed numeric
suffix, or `float("inf")` — the top element — when the regex fails. -/
def keyVal (f : String) : WithTop ℕ :=
  match suffix_key f with
  | some n => (n : WithTop ℕ)
  | none => ⊤

/-- The sorted input list of `export_single_file` (dxfapi.py lines 249-252). -/
def export_file_order (files : List String) : List String :=
  pySortBy keyVal (files.filter (fun f => ends_with_dxf f))

/-- The sheet assignment of `export_single_file` (dxfapi.py lines
254-265): the i-th file of the sorted order is imported into the
paperspace named "FL(i+1)". -/
def export_sheet_assignment (files : List String) : List (String × String) :=
  (export_file_order files).enum.map (fun p => (p.2, "FL" ++ toString (p.1 + 1)))

/-- C7: the combined export assigns input files to sheets FL1, FL2, … in
the order of their parsed numeric suffix; files without a parseable suffix
have the top key, hence sort last, and within each key class — in
particular among the suffix-less files — the original listing order is
kept. -/
theorem export_sheet_order_spec (files : List String) :
    (export_file_order files).Pairwise (fun a b => keyVal a ≤ keyVal b) ∧
    (∀ c, (export_file_order files).filter (fun f => keyVal f = c)
        = (files.filter (fun f => ends_with_dxf f)).filter (fun f => keyVal f = c)) ∧
    (export_file_order files).Perm (files.filter (fun f => ends_with_dxf f)) ∧
    (∀ i f, (export_file_order files)[i]? = some f →
      (export_sheet_assignment files)[i]? = some (f, "FL" ++ toString (i + 1))) := by
  refine ⟨pairwise_pySortBy _ _, fun c => filter_pySortBy _ _ _, pySortBy_perm _ _, ?_⟩
  intro i f hf
  simp [export_sheet_assignment, List.getElem?_enum, hf]

theorem export_sheet_order_spec_witness :
    (export_file_order ["a_2.dxf", "a_1.dxf", "b.dxf"])[0]? = some "a_1.dxf" ∧
    (export_sheet_assignment ["a_2.dxf", "a_1.dxf", "b.dxf"])[0]? = some ("a_1.dxf", "FL1") ∧
    export_sheet_assignment ["a_2.dxf", "a_1.dxf", "b.dxf"]
      = [("a_1.dxf", "FL1"), ("a_2.dxf", "FL2"), ("b.dxf", "FL3")] :=
  ⟨by decide,
    (export_sheet_order_spec ["a_2.dxf", "a_1.dxf", "b.dxf"]).2.2.2 0 "a_1.dxf" (by decide),
    by decide⟩

end ExportClaim

section Blocks

/-- `get_removable_blocks` (dxfapi.py lines 112-125): every block name not
starting (case-insensitively) with a reserved container prefix. -/
def get_removable_blocks (doc : Doc) : List String :=
  (doc.blocks.map (·.1)).filter (fun block_name =>
    !(List.isPrefixOf "*MODEL_SPACE".data (block_name.data.map Char.toUpper) ||
      List.isPrefixOf "*PAPER_SPACE".data (block_name.data.map Char.toUpper)))

/-- The entity list of a named block definition (`doc.blocks.get`). -/
def block_entities (doc : Doc) (name : String) : List Entity :=
  ((doc.blocks.find? (fun p => p.1 == name)).map (·.2)).getD []

/-- The reference graph as an adjacency list, insertion-ordered like the
Python dict. -/
abbrev Graph := List (String × List String)

def graph_nodes (g : Graph) : List String := g.map (·.1)

def nbrs (g : Graph) (n : String) : List String :=
  ((g.find? (fun p => p.1 == n)).map (·.2)).getD []

/-- The graph built by `get_deletion_order` (dxfapi.py lines 138-145):
node per removable block, an edge to every block referenced by an INSERT
entity of its definition when that block is itself removable.  The source
stores successors in a Python set, whose iteration order is arbitrary and
whose deduplication is irrelevant to every property proved below, so the
successor list keeps the entity order. -/
def build_graph (doc : Doc) (removable : List String) : Graph :=
  removable.map (fun block =>
    (block, (block_entities doc block).filterMap (fun entity =>
      if entity.dxftype = "INSERT" ∧ entity.blockName ∈ removable
      then some entity.blockName else none)))

/-- An edge A→B of the reference graph: A's definition references B. -/
def Edge (g : Graph) (a b : String) : Prop := b ∈ nbrs g a

instance (g : Graph) (a b : String) : Decidable (Edge g a b) :=
  inferInstanceAs (Decidable (b ∈ nbrs g a))

/-- The graph has no directed cycle. -/
def Acyclic (g : Graph) : Prop := ∀ n, ¬ Relation.TransGen (Edge g) n n

/-- The traversal state of the depth-first search of `get_deletion_order`:
the `visited` color map (1 = visiting, 2 = visited; newest binding first,
like the Python dict assignment it models) and the finish-order list. -/
structure DfsState where
  visited : List (String × Nat)
  order : List String
  deriving Repr, DecidableEq

/-- Color lookup: `visited[node]`, `none` when absent. -/
def getVis (st : DfsState) (n : String) : Option Nat :=
  (st.visited.find? (fun p => p.1 == n)).map (·.2)

/-- The failure conditions of the embedded search: `cycle` models the
`ValueError` of dxfapi.py line 153; `outOfFuel` is an artifact of the
fuel-indexed embedding of the unbounded Python recursion and is proved
unreachable for the fuel `get_deletion_order` uses. -/
inductive DfsError | cycle | outOfFuel
  deriving Repr, DecidableEq

/-- Sequencing of a depth-first step over a list of neighbors
(the `for neighbor in graph[node]` loop of dxfapi.py lines 156-157),
stopping at the first error. -/
def dfsListAux (f : String → DfsState → Except DfsError DfsState) :
    List String → DfsState → Except DfsError DfsState
  | [], st => .ok st
  | m :: ms, st =>
      match f m st with
      | .error e => .error e
      | .ok st' => dfsListAux f ms st'

/-- The inner `dfs` of `get_deletion_order` (dxfapi.py lines 150-159),
structurally recursive on the fuel. -/
def dfsVisit (g : Graph) : Nat → String → DfsState → Except DfsError DfsState
  | 0, _, _ => .error .outOfFuel
  | fuel + 1, node, st =>
    match getVis st node with
    | some 1 => .error .cycle
    | some _ => .ok st
    | none =>
        match dfsListAux (dfsVisit g fuel) (nbrs g node)
            { st with visited := (node, 1) :: st.visited } with
        | .error e => .error e
        | .ok st2 => .ok { visited := (node, 2) :: st2.visited, order := st2.order ++ [node] }

/-- The neighbor loop at a given fuel level. -/
def dfsList (g : Graph) (fuel : Nat) (ns : List String) (st : DfsState) :
    Except DfsError DfsState :=
  dfsListAux (dfsVisit g fuel) ns st

/-- The `for node in graph` driver loop (dxfapi.py lines 161-163). -/
def dfsTop (g : Graph) (fuel : Nat) : List String → DfsState → Except DfsError DfsState
  | [], st => .ok st
  | node :: ns, st =>
      match getVis st node with
      | some _ => dfsTop g fuel ns st
      | none =>
          match dfsVisit g fuel node st with
          | .error e => .error e
          | .ok st' => dfsTop g fuel ns st'

/-- Fuel that can never run out: one more than the number of distinct
nodes (each unit of fuel is consumed only when entering an unvisited
node). -/
def graph_fuel (g : Graph) : Nat := (graph_nodes g).dedup.length + 1

/-- `get_deletion_order` (dxfapi.py lines 128-166): build the graph, run
the search from every node, reverse the finish order. -/
def get_deletion_order (doc : Doc) (removable : List String) :
    Except DfsError (List String) :=
  let g := build_graph doc removable
  match dfsTop g (graph_fuel g) (graph_nodes g) { visited := [], order := [] } with
  | .error e => .error e
  | .ok st => .ok st.order.reverse

/-- The fallback of `purge_blocks` (dxfapi.py line 181):
`sorted(removable, key=len, reverse=True)` — Python's stable sort on the
dual order of name length. -/
def fallback_order (removable : List String) : List String :=
  pySortBy (fun s => OrderDual.toDual s.length) removable

/-- The order in which `purge_blocks` (dxfapi.py lines 169-189) attempts
deletions: the resolver's order, or the name-length fallback when the
resolver raised. -/
def purge_deletion_order (doc : Doc) : List String :=
  match get_deletion_order doc (get_removable_blocks doc) with
  | .ok order => order
  | .error _ => fallback_order (get_removable_blocks doc)

/-- `doc.blocks.delete_block` (success case; a per-block failure is caught
by `purge_blocks` and leaves the document unchanged). -/
def delete_block (doc : Doc) (name : String) : Doc :=
  { doc with blocks := doc.blocks.filter (fun p => p.1 ≠ name) }

/-- `purge_blocks` (dxfapi.py lines 169-189). -/
def purge_blocks (doc : Doc) : Doc :=
  (purge_deletion_order doc).foldl delete_block doc

section DfsStateLemmas

theorem getVis_order_irrel (vis : List (String × Nat)) (ord ord' : List String)
    (m : String) : getVis ⟨vis, ord⟩ m = getVis ⟨vis, ord'⟩ m := rfl

theorem getVis_cons_self (n : String) (v : Nat) (vis : List (String × Nat))
    (ord : List String) : getVis ⟨(n, v) :: vis, ord⟩ n = some v := by
  simp [getVis, List.find?_cons]

theorem getVis_cons_ne (n m : String) (v : Nat) (vis : List (String × Nat))
    (ord ord' : List String) (h : m ≠ n) :
    getVis ⟨(n, v) :: vis, ord⟩ m = getVis ⟨vis, ord'⟩ m := by
  have : (n == m) = false := beq_eq_false_iff_ne.mpr (Ne.symm h)
  simp [getVis, List.find?_cons, this]

theorem getVis_val_cases (st : DfsState) (m : String) (v : Nat)
    (hwf : ∀ p ∈ st.visited, p.2 = 1 ∨ p.2 = 2)
    (h : getVis st m = some v) : v = 1 ∨ v = 2 := by
  rcases Option.map_eq_some'.mp h with ⟨p, hp, hv⟩
  have := hwf p (List.mem_of_find?_eq_some hp)
  omega

end DfsStateLemmas

section DfsPreservation

/-- On a successful run, every binding of the color map keeps its value:
in particular, "visiting" and "visited" nodes remain in those colors. -/
theorem dfs_preserves_getVis (g : Graph) : ∀ fuel : Nat,
    (∀ n st st', dfsVisit g fuel n st = .ok st' →
      ∀ m v, getVis st m = some v → getVis st' m = some v) ∧
    (∀ ns st st', dfsListAux (dfsVisit g fuel) ns st = .ok st' →
      ∀ m v, getVis st m = some v → getVis st' m = some v) := by
  intro fuel
  induction fuel with
  | zero =>
      constructor
      · intro n st st' h
        simp [dfsVisit] at h
      · intro ns
        induction ns with
        | nil =>
            intro st st' h m v hv
            simp only [dfsListAux] at h
            cases h
            exact hv
        | cons a as ih =>
            intro st st' h
            simp [dfsListAux, dfsVisit] at h
  | succ fuel ihf =>
      have hvisit : ∀ n st st', dfsVisit g (fuel + 1) n st = .ok st' →
          ∀ m v, getVis st m = some v → getVis st' m = some v := by
        intro n st st' h m v hv
        rw [dfsVisit] at h
        cases hn : getVis st n with
        | some w =>
            rw [hn] at h
            match w with
            | 0 => cases h; exact hv
            | 1 => cases h
            | w + 2 => cases h; exact hv
        | none =>
            rw [hn] at h
            have hmn : m ≠ n := by
              intro he
              rw [he, hn] at hv
              cases hv
            cases hrec : dfsListAux (dfsVisit g fuel) (nbrs g n)
                { st with visited := (n, 1) :: st.visited } with
            | error e => rw [hrec] at h; cases h
            | ok st2 =>
                rw [hrec] at h
                cases h
                have h1 : getVis { st with visited := (n, 1) :: st.visited } m = some v := by
                  cases st with
                  | mk vis ord => rw [getVis_cons_ne n m 1 vis ord ord hmn]; exact hv
                have h2 := ihf.2 _ _ _ hrec m v h1
                cases st2 with
                | mk vis2 ord2 => rw [getVis_cons_ne n m 2 vis2 _ ord2 hmn]; exact h2
      refine ⟨hvisit, ?_⟩
      intro ns
      induction ns with
      | nil =>
          intro st st' h m v hv
          simp only [dfsListAux] at h
          cases h
          exact hv
      | cons a as ih =>
          intro st st' h m v hv
          simp only [dfsListAux] at h
          cases ha : dfsVisit g (fuel + 1) a st with
          | error e => rw [ha] at h; cases h
          | ok st1 =>
              rw [ha] at h
              exact ih st1 st' h m v (hvisit a st st1 ha m v hv)

theorem dfsTop_preserves_getVis (g : Graph) (fuel : Nat) :
    ∀ ns st st', dfsTop g fuel ns st = .ok st' →
      ∀ m v, getVis st m = some v → getVis st' m = some v := by
  intro ns
  induction ns with
  | nil =>
      intro st st' h m v hv
      simp only [dfsTop] at h
      cases h
      exact hv
  | cons a as ih =>
      intro st st' h m v hv
      simp only [dfsTop] at h
      cases ha : getVis st a with
      | some w =>
          rw [ha] at h
          exact ih st st' h m v hv
      | none =>
          rw [ha] at h
          cases hv' : dfsVisit g fuel a st with
          | error e => rw [hv'] at h; cases h
          | ok st1 =>
              rw [hv'] at h
              exact ih st1 st' h m v ((dfs_preserves_getVis g fuel).1 a st st1 hv' m v hv)

end DfsPreservation

section DfsGreyWf

/-- On a successful run no new "visiting" (grey) node survives: every node
grey afterwards was already grey before. -/
theorem dfs_grey_shrinks (g : Graph) : ∀ fuel : Nat,
    (∀ n st st', dfsVisit g fuel n st = .ok st' →
      ∀ m, getVis st' m = some 1 → getVis st m = some 1) ∧
    (∀ ns st st', dfsListAux (dfsVisit g fuel) ns st = .ok st' →
      ∀ m, getVis st' m = some 1 → getVis st m = some 1) := by
  intro fuel
  induction fuel with
  | zero =>
      constructor
      · intro n st st' h
        simp [dfsVisit] at h
      · intro ns
        induction ns with
        | nil =>
            intro st st' h m hm
            simp only [dfsListAux] at h
            cases h
            exact hm
        | cons a as ih =>
            intro st st' h
            simp [dfsListAux, dfsVisit] at h
  | succ fuel ihf =>
      have hvisit : ∀ n st st', dfsVisit g (fuel + 1) n st = .ok st' →
          ∀ m, getVis st' m = some 1 → getVis st m = some 1 := by
        intro n st st' h m hm
        rw [dfsVisit] at h
        cases hn : getVis st n with
        | some w =>
            rw [hn] at h
            match w with
            | 0 => cases h; exact hm
            | 1 => cases h
            | w + 2 => cases h; exact hm
        | none =>
            rw [hn] at h
            cases hrec : dfsListAux (dfsVisit g fuel) (nbrs g n)
                { st with visited := (n, 1) :: st.visited } with
            | error e => rw [hrec] at h; cases h
            | ok st2 =>
                rw [hrec] at h
                cases h
                have hmn : m ≠ n := by
                  intro he
                  subst he
                  cases st2 with
                  | mk vis2 ord2 => rw [getVis_cons_self] at hm; cases hm
                have hm2 : getVis st2 m = some 1 := by
                  cases st2 with
                  | mk vis2 ord2 => rw [getVis_cons_ne n m 2 vis2 _ ord2 hmn] at hm; exact hm
                have hm1 := ihf.2 _ _ _ hrec m hm2
                cases st with
                | mk vis ord => rw [getVis_cons_ne n m 1 vis ord ord hmn] at hm1; exact hm1
      refine ⟨hvisit, ?_⟩
      intro ns
      induction ns with
      | nil =>
          intro st st' h m hm
          simp only [dfsListAux] at h
          cases h
          exact hm
      | cons a as ih =>
          intro st st' h m hm
          simp only [dfsListAux] at h
          cases ha : dfsVisit g (fuel + 1) a st with
          | error e => rw [ha] at h; cases h
          | ok st1 =>
              rw [ha] at h
              exact hvisit a st st1 ha m (ih st1 st' h m hm)

theorem dfsTop_grey_shrinks (g : Graph) (fuel : Nat) :
    ∀ ns st st', dfsTop g fuel ns st = .ok st' →
      ∀ m, getVis st' m = some 1 → getVis st m = some 1 := by
  intro ns
  induction ns with
  | nil =>
      intro st st' h m hm
      simp only [dfsTop] at h
      cases h
      exact hm
  | cons a as ih =>
      intro st st' h m hm
      simp only [dfsTop] at h
      cases ha : getVis st a with
      | some w =>
          rw [ha] at h
          exact ih st st' h m hm
      | none =>
          rw [ha] at h
          cases hv' : dfsVisit g fuel a st with
          | error e => rw [hv'] at h; cases h
          | ok st1 =>
              rw [hv'] at h
              exact (dfs_grey_shrinks g fuel).1 a st st1 hv' m (ih st1 st' h m hm)

/-- Only the colors 1 and 2 are ever stored. -/
theorem dfs_preserves_wf (g : Graph) : ∀ fuel : Nat,
    (∀ n st st', dfsVisit g fuel n st = .ok st' →
      (∀ p ∈ st.visited, p.2 = 1 ∨ p.2 = 2) → ∀ p ∈ st'.visited, p.2 = 1 ∨ p.2 = 2) ∧
    (∀ ns st st', dfsListAux (dfsVisit g fuel) ns st = .ok st' →
      (∀ p ∈ st.visited, p.2 = 1 ∨ p.2 = 2) → ∀ p ∈ st'.visited, p.2 = 1 ∨ p.2 = 2) := by
  intro fuel
  induction fuel with
  | zero =>
      constructor
      · intro n st st' h
        simp [dfsVisit] at h
      · intro ns
        induction ns with
        | nil =>
            intro st st' h hwf
            simp only [dfsListAux] at h
            cases h
            exact hwf
        | cons a as ih =>
            intro st st' h
            simp [dfsListAux, dfsVisit] at h
  | succ fuel ihf =>
      have hvisit : ∀ n st st', dfsVisit g (fuel + 1) n st = .ok st' →
          (∀ p ∈ st.visited, p.2 = 1 ∨ p.2 = 2) → ∀ p ∈ st'.visited, p.2 = 1 ∨ p.2 = 2 := by
        intro n st st' h hwf
        rw [dfsVisit] at h
        cases hn : getVis st n with
        | some w =>
            rw [hn] at h
            match w with
            | 0 => cases h; exact hwf
            | 1 => cases h
            | w + 2 => cases h; exact hwf
        | none =>
            rw [hn] at h
            cases hrec : dfsListAux (dfsVisit g fuel) (nbrs g n)
                { st with visited := (n, 1) :: st.visited } with
            | error e => rw [hrec] at h; cases h
            | ok st2 =>
                rw [hrec] at h
                cases h
                have hwf1 : ∀ p ∈ (st.visited.cons (n, 1)), p.2 = 1 ∨ p.2 = 2 := by
                  intro p hp
                  rcases List.mem_cons.mp hp with rfl | hp
                  · exact Or.inl rfl
                  · exact hwf p hp
                have hwf2 := ihf.2 _ _ _ hrec hwf1
                intro p hp
                rcases List.mem_cons.mp hp with rfl | hp
                · exact Or.inr rfl
                · exact hwf2 p hp
      refine ⟨hvisit, ?_⟩
      intro ns
      induction ns with
      | nil =>
          intro st st' h hwf
          simp only [dfsListAux] at h
          cases h
          exact hwf
      | cons a as ih =>
          intro st st' h hwf
          simp only [dfsListAux] at h
          cases ha : dfsVisit g (fuel + 1) a st with
          | error e => rw [ha] at h; cases h
          | ok st1 =>
              rw [ha] at h
              exact ih st1 st' h (hvisit a st st1 ha hwf)

end DfsGreyWf

section DfsDone

/-- A successful `dfs(node)` leaves the node colored "visited". -/
theorem dfsVisit_done (g : Graph) (fuel : Nat) (n : String) (st st' : DfsState)
    (h : dfsVisit g fuel n st = .ok st')
    (hwf : ∀ p ∈ st.visited, p.2 = 1 ∨ p.2 = 2) :
    getVis st' n = some 2 := by
  match fuel with
  | 0 => simp [dfsVisit] at h
  | fuel + 1 =>
      rw [dfsVisit] at h
      cases hn : getVis st n with
      | some w =>
          rw [hn] at h
          match w with
          | 0 =>
              exact absurd (getVis_val_cases st n 0 hwf hn) (by omega)
          | 1 => cases h
          | w + 2 =>
              rcases getVis_val_cases st n (w + 2) hwf hn with hv | hv
              · omega
              · cases h
                rw [hn, hv]
      | none =>
          rw [hn] at h
          cases hrec : dfsListAux (dfsVisit g fuel) (nbrs g n)
              { st with visited := (n, 1) :: st.visited } with
          | error e => rw [hrec] at h; cases h
          | ok st2 =>
              rw [hrec] at h
              cases h
              cases st2 with
              | mk vis2 ord2 => exact getVis_cons_self n 2 vis2 _

/-- After a successful neighbor loop every neighbor is colored "visited". -/
theorem dfsListAux_done (g : Graph) (fuel : Nat) :
    ∀ ns st st', dfsListAux (dfsVisit g fuel) ns st = .ok st' →
      (∀ p ∈ st.visited, p.2 = 1 ∨ p.2 = 2) →
      ∀ m ∈ ns, getVis st' m = some 2 := by
  intro ns
  induction ns with
  | nil =>
      intro st st' h hwf m hm
      cases hm
  | cons a as ih =>
      intro st st' h hwf m hm
      simp only [dfsListAux] at h
      cases ha : dfsVisit g fuel a st with
      | error e => rw [ha] at h; cases h
      | ok st1 =>
          rw [ha] at h
          rcases List.mem_cons.mp hm with rfl | hm
          · exact (dfs_preserves_getVis g fuel).2 as st1 st' h m 2
              (dfsVisit_done g fuel m st st1 ha hwf)
          · exact ih st1 st' h ((dfs_preserves_wf g fuel).1 a st st1 ha hwf) m hm

end DfsDone

section DfsInvariant

/-- The traversal invariant: colors are well-formed, the finish-order list
contains exactly the "visited" nodes without repetition, and every finished
node appears after all of its successors. -/
structure DfsInv (g : Graph) (st : DfsState) : Prop where
  wf : ∀ p ∈ st.visited, p.2 = 1 ∨ p.2 = 2
  mem_order : ∀ k, k ∈ st.order ↔ getVis st k = some 2
  nodup : st.order.Nodup
  edges : ∀ k ∈ st.order, ∀ m ∈ nbrs g k, [m, k].Sublist st.order

theorem dfsInv_initial (g : Graph) : DfsInv g { visited := [], order := [] } := by
  refine ⟨by simp, ?_, by simp, by simp⟩
  intro k
  simp [getVis]

theorem dfs_preserves_inv (g : Graph) : ∀ fuel : Nat,
    (∀ n st st', dfsVisit g fuel n st = .ok st' → DfsInv g st → DfsInv g st') ∧
    (∀ ns st st', dfsListAux (dfsVisit g fuel) ns st = .ok st' → DfsInv g st → DfsInv g st') := by
  intro fuel
  induction fuel with
  | zero =>
      constructor
      · intro n st st' h
        simp [dfsVisit] at h
      · intro ns
        induction ns with
        | nil =>
            intro st st' h hinv
            simp only [dfsListAux] at h
            cases h
            exact hinv
        | cons a as ih =>
            intro st st' h
            simp [dfsListAux, dfsVisit] at h
  | succ fuel ihf =>
      have hvisit : ∀ n st st', dfsVisit g (fuel + 1) n st = .ok st' →
          DfsInv g st → DfsInv g st' := by
        intro n st st' h hinv
        rw [dfsVisit] at h
        cases hn : getVis st n with
        | some w =>
            rw [hn] at h
            match w with
            | 0 => cases h; exact hinv
            | 1 => cases h
            | w + 2 => cases h; exact hinv
        | none =>
            rw [hn] at h
            cases hrec : dfsListAux (dfsVisit g fuel) (nbrs g n)
                { st with visited := (n, 1) :: st.visited } with
            | error e => rw [hrec] at h; cases h
            | ok st2 =>
                rw [hrec] at h
                cases h
                -- the invariant holds after marking n as visiting
                have hinv1 : DfsInv g { st with visited := (n, 1) :: st.visited } := by
                  refine ⟨?_, ?_, hinv.nodup, hinv.edges⟩
                  · intro p hp
                    rcases List.mem_cons.mp hp with rfl | hp
                    · exact Or.inl rfl
                    · exact hinv.wf p hp
                  · intro k
                    by_cases hk : k = n
                    · subst hk
                      cases st with
                      | mk vis ord =>
                          rw [getVis_cons_self]
                          have : k ∉ ord := by
                            intro hmem
                            have := (hinv.mem_order k).mp hmem
                            rw [hn] at this
                            cases this
                          simp [this]
                    · cases st with
                      | mk vis ord =>
                          rw [getVis_cons_ne n k 1 vis ord ord hk]
                          exact hinv.mem_order k
                have hinv2 := ihf.2 _ _ _ hrec hinv1
                -- n is still grey after the neighbor loop, hence not yet finished
                have hgrey2 : getVis st2 n = some 1 := by
                  apply (dfs_preserves_getVis g fuel).2 _ _ _ hrec
                  cases st with
                  | mk vis ord => exact getVis_cons_self n 1 vis ord
                have hnot2 : n ∉ st2.order := by
                  intro hmem
                  have := (hinv2.mem_order n).mp hmem
                  rw [hgrey2] at this
                  cases this
                -- all successors of n are finished after the neighbor loop
                have hdone : ∀ m ∈ nbrs g n, getVis st2 m = some 2 := by
                  intro m hm
                  exact dfsListAux_done g fuel _ _ _ hrec hinv1.wf m hm
                refine ⟨?_, ?_, ?_, ?_⟩
                · intro p hp
                  rcases List.mem_cons.mp hp with rfl | hp
                  · exact Or.inr rfl
                  · exact hinv2.wf p hp
                · intro k
                  by_cases hk : k = n
                  · subst hk
                    cases st2 with
                    | mk vis2 ord2 =>
                        rw [getVis_cons_self]
                        simp
                  · cases st2 with
                    | mk vis2 ord2 =>
                        rw [getVis_cons_ne n k 2 vis2 _ ord2 hk]
                        have := hinv2.mem_order k
                        simp only [List.mem_append, List.mem_singleton, hk, or_false]
                        exact this
                · have : st2.order.Nodup := hinv2.nodup
                  simp [List.nodup_append, this, hnot2]
                · intro k hk m hm
                  rcases List.mem_append.mp hk with hk2 | hk2
                  · exact (hinv2.edges k hk2 m hm).trans (List.sublist_append_left _ _)
                  · have hkn : k = n := by simpa using hk2
                    subst hkn
                    have hmem : m ∈ st2.order := (hinv2.mem_order m).mpr (hdone m hm)
                    exact List.Sublist.append (List.singleton_sublist.mpr hmem)
                      (List.Sublist.refl [k])
      refine ⟨hvisit, ?_⟩
      intro ns
      induction ns with
      | nil =>
          intro st st' h hinv
          simp only [dfsListAux] at h
          cases h
          exact hinv
      | cons a as ih =>
          intro st st' h hinv
          simp only [dfsListAux] at h
          cases ha : dfsVisit g (fuel + 1) a st with
          | error e => rw [ha] at h; cases h
          | ok st1 =>
              rw [ha] at h
              exact ih st1 st' h (hvisit a st st1 ha hinv)

theorem dfsTop_inv (g : Graph) (fuel : Nat) :
    ∀ ns st st', dfsTop g fuel ns st = .ok st' → DfsInv g st →
      DfsInv g st' ∧ ∀ n ∈ ns, getVis st' n ≠ none := by
  intro ns
  induction ns with
  | nil =>
      intro st st' h hinv
      simp only [dfsTop] at h
      cases h
      exact ⟨hinv, by simp⟩
  | cons a as ih =>
      intro st st' h hinv
      simp only [dfsTop] at h
      cases ha : getVis st a with
      | some w =>
          rw [ha] at h
          rcases ih st st' h hinv with ⟨hinv', hall⟩
          refine ⟨hinv', ?_⟩
          intro n hn
          rcases List.mem_cons.mp hn with rfl | hn
          · rw [dfsTop_preserves_getVis g fuel as st st' h n w ha]
            simp
          · exact hall n hn
      | none =>
          rw [ha] at h
          cases hv' : dfsVisit g fuel a st with
          | error e => rw [hv'] at h; cases h
          | ok st1 =>
              rw [hv'] at h
              have hinv1 := (dfs_preserves_inv g fuel).1 a st st1 hv' hinv
              rcases ih st1 st' h hinv1 with ⟨hinv', hall⟩
              refine ⟨hinv', ?_⟩
              intro n hn
              rcases List.mem_cons.mp hn with rfl | hn
              · have hd := dfsVisit_done g fuel n st st1 hv' hinv.wf
                rw [dfsTop_preserves_getVis g fuel as st1 st' h n 2 hd]
                simp
              · exact hall n hn

end DfsInvariant

section GraphLemmas

theorem graph_nodes_build (doc : Doc) (removable : List String) :
    graph_nodes (build_graph doc removable) = removable := by
  simp [graph_nodes, build_graph, Function.comp_def]

theorem edge_fst_mem (g : Graph) (a b : String) (h : Edge g a b) :
    a ∈ graph_nodes g := by
  rw [Edge, nbrs] at h
  cases hf : g.find? (fun p => p.1 == a) with
  | none => rw [hf] at h; cases h
  | some p =>
      have hmem := List.mem_of_find?_eq_some hf
      have heq : p.1 = a := by
        have := List.find?_some hf
        exact eq_of_beq this
      exact heq ▸ List.mem_map_of_mem (·.1) hmem

theorem edge_snd_mem_build (doc : Doc) (removable : List String) (a b : String)
    (h : Edge (build_graph doc removable) a b) : b ∈ removable := by
  rw [Edge, nbrs] at h
  cases hf : (build_graph doc removable).find? (fun p => p.1 == a) with
  | none => rw [hf] at h; cases h
  | some p =>
      rw [hf] at h
      simp only [Option.map_some', Option.getD_some] at h
      have hmem := List.mem_of_find?_eq_some hf
      rcases List.mem_map.mp hmem with ⟨block, _, hpb⟩
      rw [← hpb] at h
      simp only at h
      rcases List.mem_filterMap.mp h with ⟨entity, _, hfe⟩
      by_cases hc : entity.dxftype = "INSERT" ∧ entity.blockName ∈ removable
      · rw [if_pos hc] at hfe
        cases hfe
        exact hc.2
      · rw [if_neg hc] at hfe
        cases hfe

/-- Topological soundness of a successful resolution: the returned order
has no duplicates, contains every removable block, and lists every block
before each block it references. -/
theorem get_deletion_order_ok_spec (doc : Doc) (removable : List String)
    (ord : List String) (h : get_deletion_order doc removable = .ok ord) :
    ord.Nodup ∧ (∀ a ∈ removable, a ∈ ord) ∧
    (∀ a b, Edge (build_graph doc removable) a b → [a, b].Sublist ord) := by
  rw [get_deletion_order] at h
  cases htop : dfsTop (build_graph doc removable)
      (graph_fuel (build_graph doc removable))
      (graph_nodes (build_graph doc removable)) { visited := [], order := [] } with
  | error e => rw [htop] at h; cases h
  | ok st =>
      rw [htop] at h
      cases h
      rcases dfsTop_inv _ _ _ _ _ htop (dfsInv_initial _) with ⟨hinv, hall⟩
      have hnogrey : ∀ m, getVis st m ≠ some 1 := by
        intro m hm
        have := dfsTop_grey_shrinks _ _ _ _ _ htop m hm
        simp [getVis] at this
      have hmemord : ∀ a ∈ removable, a ∈ st.order := by
        intro a ha
        have hne := hall a (by rw [graph_nodes_build]; exact ha)
        cases hv : getVis st a with
        | none => exact absurd hv hne
        | some v =>
            rcases getVis_val_cases st a v hinv.wf hv with rfl | rfl
            · exact absurd hv (hnogrey a)
            · exact (hinv.mem_order a).mpr hv
      refine ⟨List.nodup_reverse.mpr hinv.nodup, ?_, ?_⟩
      · intro a ha
        exact List.mem_reverse.mpr (hmemord a ha)
      · intro a b hab
        have haord : a ∈ st.order := by
          apply hmemord
          have := edge_fst_mem _ a b hab
          rwa [graph_nodes_build] at this
        have hsub : [b, a].Sublist st.order := hinv.edges a haord b hab
        have := hsub.reverse
        simpa using this

end GraphLemmas

section CycleLemmas

theorem sublist_pair_indexOf_lt {α : Type} [DecidableEq α] :
    ∀ (l : List α) (a b : α), l.Nodup → [a, b].Sublist l →
      l.indexOf a < l.indexOf b := by
  intro l
  induction l with
  | nil =>
      intro a b _ hs
      cases hs
  | cons x xs ih =>
      intro a b hnd hs
      rcases List.pairwise_cons.mp hnd with ⟨hx, hnd'⟩
      cases hs with
      | cons _ hs' =>
          -- [a, b] <+ xs
          have ha : a ∈ xs := hs'.subset (by simp)
          have hb : b ∈ xs := hs'.subset (by simp)
          rw [List.indexOf_cons_ne _ (hx a ha), List.indexOf_cons_ne _ (hx b hb)]
          exact Nat.succ_lt_succ (ih a b hnd' hs')
      | cons₂ _ hs' =>
          -- x = a, [b] <+ xs
          have hb : b ∈ xs := hs'.subset (by simp)
          rw [List.indexOf_cons_self, List.indexOf_cons_ne _ (hx b hb)]
          exact Nat.succ_pos _

theorem transGen_indexOf_lt (g : Graph) (ord : List String) (hnd : ord.Nodup)
    (hedge : ∀ a b, Edge g a b → [a, b].Sublist ord) :
    ∀ a b, Relation.TransGen (Edge g) a b → ord.indexOf a < ord.indexOf b := by
  intro a b h
  induction h with
  | single hab => exact sublist_pair_indexOf_lt ord _ _ hnd (hedge _ _ hab)
  | tail _ hbc ih =>
      exact lt_trans ih (sublist_pair_indexOf_lt ord _ _ hnd (hedge _ _ hbc))

/-- A cycle in the reference graph forbids a successful resolution. -/
theorem get_deletion_order_cyclic_not_ok (doc : Doc) (removable : List String)
    (hcyc : ∃ n, Relation.TransGen (Edge (build_graph doc removable)) n n) :
    ∀ ord, get_deletion_order doc removable ≠ .ok ord := by
  intro ord h
  rcases hcyc with ⟨n, hn⟩
  rcases get_deletion_order_ok_spec doc removable ord h with ⟨hnd, _, hedge⟩
  exact lt_irrefl _ (transGen_indexOf_lt _ ord hnd hedge n n hn)

end CycleLemmas

section FuelLemmas

theorem length_filter_mono {α : Type} (l : List α) (p q : α → Bool)
    (h : ∀ a ∈ l, p a = true → q a = true) :
    (l.filter p).length ≤ (l.filter q).length := by
  induction l with
  | nil => simp
  | cons x xs ih =>
      have ih' := ih (fun a ha hp => h a (by simp [ha]) hp)
      by_cases hp : p x = true
      · rw [List.filter_cons_of_pos hp, List.filter_cons_of_pos (h x (by simp) hp)]
        simpa using ih'
      · rw [List.filter_cons_of_neg (by simpa using hp)]
        by_cases hq : q x = true
        · rw [List.filter_cons_of_pos hq]
          exact le_trans ih' (by simp)
        · rw [List.filter_cons_of_neg (by simpa using hq)]
          exact ih'

theorem length_filter_lt_of_flip {α : Type} (l : List α) (p q : α → Bool) (n : α)
    (hl : l.Nodup) (hn : n ∈ l) (hpn : p n = false) (hqn : q n = true)
    (hagree : ∀ a ∈ l, a ≠ n → p a = q a) :
    (l.filter p).length < (l.filter q).length := by
  induction l with
  | nil => cases hn
  | cons x xs ih =>
      rcases List.pairwise_cons.mp hl with ⟨hx, hl'⟩
      rcases List.mem_cons.mp hn with rfl | hn'
      · rw [List.filter_cons_of_neg (by simp [hpn]), List.filter_cons_of_pos hqn]
        have : (xs.filter p).length ≤ (xs.filter q).length := by
          have : xs.filter p = xs.filter q := by
            apply List.filter_congr
            intro a ha
            exact hagree a (by simp [ha]) (fun he => hx a ha he.symm)
          rw [this]
        simpa using Nat.lt_succ_of_le this
      · have hxn : x ≠ n := fun he => hx n hn' he
        have hpq : p x = q x := hagree x (by simp) hxn
        have ih' := ih hl' hn' (fun a ha han => hagree a (by simp [ha]) han)
        by_cases hp : p x = true
        · rw [List.filter_cons_of_pos hp, List.filter_cons_of_pos (hpq ▸ hp)]
          simpa using ih'
        · rw [List.filter_cons_of_neg (by simpa using hp),
            List.filter_cons_of_neg (by simp [← hpq]; simpa using hp)]
          exact ih'

/-- Number of graph nodes not yet colored. -/
def unvisitedCount (g : Graph) (st : DfsState) : Nat :=
  ((graph_nodes g).dedup.filter (fun n => (getVis st n).isNone)).length

theorem unvisitedCount_mono_visit (g : Graph) (fuel : Nat) (n : String)
    (st st' : DfsState) (h : dfsVisit g fuel n st = .ok st') :
    unvisitedCount g st' ≤ unvisitedCount g st := by
  apply length_filter_mono
  intro a _ hp
  cases hv : getVis st a with
  | none => simp [hv]
  | some v =>
      have := (dfs_preserves_getVis g fuel).1 n st st' h a v hv
      rw [this] at hp
      cases hp

theorem unvisitedCount_decrease (g : Graph) (n : String) (st : DfsState)
    (hn : n ∈ graph_nodes g) (hv : getVis st n = none) :
    unvisitedCount g { st with visited := (n, 1) :: st.visited } < unvisitedCount g st := by
  apply length_filter_lt_of_flip _ _ _ n (List.nodup_dedup _) (List.mem_dedup.mpr hn)
  · cases st with
    | mk vis ord => rw [getVis_cons_self]; rfl
  · rw [hv]; rfl
  · intro a _ ha
    cases st with
    | mk vis ord => rw [getVis_cons_ne n a 1 vis ord ord ha]

theorem dfs_no_fuel_error (g : Graph)
    (hclosed : ∀ a b, Edge g a b → b ∈ graph_nodes g) : ∀ fuel : Nat,
    (∀ n st, n ∈ graph_nodes g → unvisitedCount g st < fuel →
      dfsVisit g fuel n st ≠ .error .outOfFuel) ∧
    (∀ ns st, (∀ m ∈ ns, m ∈ graph_nodes g) → unvisitedCount g st < fuel →
      dfsListAux (dfsVisit g fuel) ns st ≠ .error .outOfFuel) := by
  intro fuel
  induction fuel with
  | zero =>
      constructor
      · intro n st _ hU
        omega
      · intro ns st _ hU
        omega
  | succ fuel ihf =>
      have hvisit : ∀ n st, n ∈ graph_nodes g → unvisitedCount g st < fuel + 1 →
          dfsVisit g (fuel + 1) n st ≠ .error .outOfFuel := by
        intro n st hn hU h
        rw [dfsVisit] at h
        cases hvn : getVis st n with
        | some w =>
            rw [hvn] at h
            match w with
            | 0 => cases h
            | 1 => cases h
            | w + 2 => cases h
        | none =>
            rw [hvn] at h
            cases hrec : dfsListAux (dfsVisit g fuel) (nbrs g n)
                { st with visited := (n, 1) :: st.visited } with
            | error e =>
                rw [hrec] at h
                cases h
                have hUd := unvisitedCount_decrease g n st hn hvn
                exact ihf.2 (nbrs g n) _
                  (fun m hm => hclosed n m hm) (by omega) hrec
            | ok st2 => rw [hrec] at h; cases h
      refine ⟨hvisit, ?_⟩
      intro ns
      induction ns with
      | nil =>
          intro st _ _ h
          simp [dfsListAux] at h
      | cons a as ih =>
          intro st hns hU h
          simp only [dfsListAux] at h
          cases ha : dfsVisit g (fuel + 1) a st with
          | error e =>
              rw [ha] at h
              cases h
              exact hvisit a st (hns a (by simp)) hU ha
          | ok st1 =>
              rw [ha] at h
              have := unvisitedCount_mono_visit g (fuel + 1) a st st1 ha
              exact ih st1 (fun m hm => hns m (by simp [hm])) (by omega) h

theorem dfsTop_no_fuel_error (g : Graph)
    (hclosed : ∀ a b, Edge g a b → b ∈ graph_nodes g) (fuel : Nat) :
    ∀ ns st, (∀ m ∈ ns, m ∈ graph_nodes g) → unvisitedCount g st < fuel →
      dfsTop g fuel ns st ≠ .error .outOfFuel := by
  intro ns
  induction ns with
  | nil =>
      intro st _ _ h
      simp [dfsTop] at h
  | cons a as ih =>
      intro st hns hU h
      simp only [dfsTop] at h
      cases ha : getVis st a with
      | some w =>
          rw [ha] at h
          exact ih st (fun m hm => hns m (by simp [hm])) hU h
      | none =>
          rw [ha] at h
          cases hv' : dfsVisit g fuel a st with
          | error e =>
              rw [hv'] at h
              cases h
              exact (dfs_no_fuel_error g hclosed fuel).1 a st (hns a (by simp)) hU hv'
          | ok st1 =>
              rw [hv'] at h
              have := unvisitedCount_mono_visit g fuel a st st1 hv'
              exact ih st1 (fun m hm => hns m (by simp [hm])) (by omega) h

/-- The fuel `get_deletion_order` supplies can never run out. -/
theorem get_deletion_order_no_fuel_error (doc : Doc) (removable : List String) :
    get_deletion_order doc removable ≠ .error .outOfFuel := by
  intro h
  rw [get_deletion_order] at h
  have hclosed : ∀ a b, Edge (build_graph doc removable) a b →
      b ∈ graph_nodes (build_graph doc removable) := by
    intro a b hab
    rw [graph_nodes_build]
    exact edge_snd_mem_build doc removable a b hab
  cases htop : dfsTop (build_graph doc removable)
      (graph_fuel (build_graph doc removable))
      (graph_nodes (build_graph doc removable)) { visited := [], order := [] } with
  | error e =>
      rw [htop] at h
      cases h
      refine dfsTop_no_fuel_error _ hclosed _ _ _ (fun m hm => hm) ?_ htop
      have : unvisitedCount (build_graph doc removable) { visited := [], order := [] }
          ≤ (graph_nodes (build_graph doc removable)).dedup.length :=
        List.length_filter_le _ _
      rw [graph_fuel]
      omega
  | ok st => rw [htop] at h; cases h

end FuelLemmas

section ErrorCycle

/-- When the search raises the cycle condition, the graph really contains
a directed cycle: every grey node can reach the current node, so hitting a
grey node closes a cycle. -/
theorem dfs_cycle_error_sound (g : Graph) : ∀ fuel : Nat,
    (∀ n st, (∀ m, getVis st m = some 1 → Relation.TransGen (Edge g) m n) →
      dfsVisit g fuel n st = .error .cycle →
      ∃ x, Relation.TransGen (Edge g) x x) ∧
    (∀ ns st, (∀ m, getVis st m = some 1 → ∀ k ∈ ns, Relation.TransGen (Edge g) m k) →
      dfsListAux (dfsVisit g fuel) ns st = .error .cycle →
      ∃ x, Relation.TransGen (Edge g) x x) := by
  intro fuel
  induction fuel with
  | zero =>
      constructor
      · intro n st _ h
        simp [dfsVisit] at h
      · intro ns
        induction ns with
        | nil =>
            intro st _ h
            simp [dfsListAux] at h
        | cons a as _ =>
            intro st _ h
            simp [dfsListAux, dfsVisit] at h
  | succ fuel ihf =>
      have hvisit : ∀ n st,
          (∀ m, getVis st m = some 1 → Relation.TransGen (Edge g) m n) →
          dfsVisit g (fuel + 1) n st = .error .cycle →
          ∃ x, Relation.TransGen (Edge g) x x := by
        intro n st hpre h
        rw [dfsVisit] at h
        cases hvn : getVis st n with
        | some w =>
            rw [hvn] at h
            match w with
            | 0 => cases h
            | 1 => exact ⟨n, hpre n hvn⟩
            | w + 2 => cases h
        | none =>
            rw [hvn] at h
            cases hrec : dfsListAux (dfsVisit g fuel) (nbrs g n)
                { st with visited := (n, 1) :: st.visited } with
            | error e =>
                rw [hrec] at h
                cases h
                apply ihf.2 (nbrs g n) _ _ hrec
                intro m hm k hk
                by_cases hmn : m = n
                · subst hmn
                  exact Relation.TransGen.single hk
                · have hm' : getVis st m = some 1 := by
                    cases st with
                    | mk vis ord => rwa [getVis_cons_ne n m 1 vis ord ord hmn] at hm
                  exact Relation.TransGen.tail (hpre m hm') hk
            | ok st2 => rw [hrec] at h; cases h
      refine ⟨hvisit, ?_⟩
      intro ns
      induction ns with
      | nil =>
          intro st _ h
          simp [dfsListAux] at h
      | cons a as ih =>
          intro st hpre h
          simp only [dfsListAux] at h
          cases ha : dfsVisit g (fuel + 1) a st with
          | error e =>
              rw [ha] at h
              cases h
              exact hvisit a st (fun m hm => hpre m hm a (by simp)) ha
          | ok st1 =>
              rw [ha] at h
              apply ih st1 _ h
              intro m hm k hk
              have hm' := (dfs_grey_shrinks g (fuel + 1)).1 a st st1 ha m hm
              exact hpre m hm' k (by simp [hk])

theorem dfsTop_cycle_error_sound (g : Graph) (fuel : Nat) :
    ∀ ns st, (∀ m, getVis st m ≠ some 1) →
      dfsTop g fuel ns st = .error .cycle →
      ∃ x, Relation.TransGen (Edge g) x x := by
  intro ns
  induction ns with
  | nil =>
      intro st _ h
      simp [dfsTop] at h
  | cons a as ih =>
      intro st hng h
      simp only [dfsTop] at h
      cases ha : getVis st a with
      | some w =>
          rw [ha] at h
          exact ih st hng h
      | none =>
          rw [ha] at h
          cases hv' : dfsVisit g fuel a st with
          | error e =>
              rw [hv'] at h
              cases h
              exact (dfs_cycle_error_sound g fuel).1 a st
                (fun m hm => absurd hm (hng m)) hv'
          | ok st1 =>
              rw [hv'] at h
              apply ih st1 _ h
              intro m hm
              exact hng m ((dfs_grey_shrinks g fuel).1 a st st1 hv' m hm)

/-- When `get_deletion_order` fails, the reference graph has a cycle. -/
theorem get_deletion_order_error_has_cycle (doc : Doc) (removable : List String)
    (e : DfsError) (h : get_deletion_order doc removable = .error e) :
    ∃ x, Relation.TransGen (Edge (build_graph doc removable)) x x := by
  have he : e = .cycle := by
    cases e
    · rfl
    · exact absurd h (get_deletion_order_no_fuel_error doc removable)
  subst he
  rw [get_deletion_order] at h
  cases htop : dfsTop (build_graph doc removable)
      (graph_fuel (build_graph doc removable))
      (graph_nodes (build_graph doc removable)) { visited := [], order := [] } with
  | error e' =>
      rw [htop] at h
      cases h
      exact dfsTop_cycle_error_sound _ _ _ _ (fun m hm => by simp [getVis] at hm) htop
  | ok st => rw [htop] at h; cases h

end ErrorCycle

section ResolverClaims

theorem acyclic_of_rank (g : Graph) (f : String → Nat)
    (hf : ∀ a b, Edge g a b → f a < f b) : Acyclic g := by
  intro n hn
  have hmono : ∀ a b, Relation.TransGen (Edge g) a b → f a < f b := by
    intro a b h
    induction h with
    | single h => exact hf _ _ h
    | tail _ h ih => exact lt_trans ih (hf _ _ h)
  exact lt_irrefl _ (hmono n n hn)

/-- C1: on an acyclic reference graph the resolver succeeds and the
returned deletion order lists every removable block exactly once, with
every block strictly before each block it references. -/
theorem resolver_acyclic_topological_order (doc : Doc) (removable : List String)
    (hacyc : Acyclic (build_graph doc removable)) :
    ∃ ord, get_deletion_order doc removable = .ok ord ∧ ord.Nodup ∧
      (∀ a ∈ removable, a ∈ ord) ∧
      (∀ a b, Edge (build_graph doc removable) a b →
        [a, b].Sublist ord ∧ ord.indexOf a < ord.indexOf b) := by
  cases hr : get_deletion_order doc removable with
  | error e =>
      rcases get_deletion_order_error_has_cycle doc removable e hr with ⟨x, hx⟩
      exact absurd hx (hacyc x)
  | ok ord =>
      rcases get_deletion_order_ok_spec doc removable ord hr with ⟨hnd, hmem, hedge⟩
      exact ⟨ord, rfl, hnd, hmem, fun a b hab =>
        ⟨hedge a b hab, sublist_pair_indexOf_lt ord a b hnd (hedge a b hab)⟩⟩

/-- A minimal INSERT entity referencing block `b`. -/
def insertEntity (b : String) : Entity :=
  { dxftype := "INSERT", layer := "0", color := 256, lineweight := -1,
    linetype := "BYLAYER", blockName := b, is_closed := false, vertices := [] }

/-- Concrete document for the C1 witness: reference chain A→B→C. -/
def docChain : Doc :=
  { layers := [], blocks := [("A", [insertEntity "B"]), ("B", [insertEntity "C"]), ("C", [])],
    linetypes := [], styles := [], modelspace := [] }

theorem docChain_acyclic :
    Acyclic (build_graph docChain (get_removable_blocks docChain)) := by
  apply acyclic_of_rank _ (fun s => if s = "B" then 1 else if s = "C" then 2 else 0)
  intro a b hab
  have ha := edge_fst_mem _ a b hab
  rw [graph_nodes_build] at ha
  have hrem : get_removable_blocks docChain = ["A", "B", "C"] := by decide
  rw [hrem] at ha
  have ha' : a = "A" ∨ a = "B" ∨ a = "C" := by simpa using ha
  rcases ha' with rfl | rfl | rfl
  · have hn : nbrs (build_graph docChain (get_removable_blocks docChain)) "A" = ["B"] := by
      decide
    rw [Edge, hn] at hab
    have : b = "B" := by simpa using hab
    subst this
    decide
  · have hn : nbrs (build_graph docChain (get_removable_blocks docChain)) "B" = ["C"] := by
      decide
    rw [Edge, hn] at hab
    have : b = "C" := by simpa using hab
    subst this
    decide
  · have hn : nbrs (build_graph docChain (get_removable_blocks docChain)) "C" = [] := by
      decide
    rw [Edge, hn] at hab
    cases hab

theorem resolver_acyclic_topological_order_witness :
    Acyclic (build_graph docChain (get_removable_blocks docChain)) ∧
    (∃ ord, get_deletion_order docChain (get_removable_blocks docChain) = .ok ord ∧
      ord.Nodup ∧ (∀ a ∈ get_removable_blocks docChain, a ∈ ord) ∧
      (∀ a b, Edge (build_graph docChain (get_removable_blocks docChain)) a b →
        [a, b].Sublist ord ∧ ord.indexOf a < ord.indexOf b)) ∧
    get_deletion_order docChain (get_removable_blocks docChain) = .ok ["A", "B", "C"] :=
  ⟨docChain_acyclic,
    resolver_acyclic_topological_order docChain (get_removable_blocks docChain) docChain_acyclic,
    rfl⟩

theorem toDual_filter_eq (l : List String) (k : Nat) :
    l.filter (fun a => OrderDual.toDual a.length = OrderDual.toDual k)
      = l.filter (fun s => s.length = k) := by
  apply List.filter_congr
  intro a _
  apply decide_eq_decide.mpr
  exact OrderDual.toDual_inj

/-- C3: on a cyclic reference graph the resolver fails with the cycle
condition; the purge coordinator catches it (its deletion order is still
defined) and deletes in name-length-descending order, equal lengths kept
in the original candidate order. -/
theorem purge_fallback_on_cyclic (doc : Doc)
    (hcyc : ∃ n, Relation.TransGen
      (Edge (build_graph doc (get_removable_blocks doc))) n n) :
    get_deletion_order doc (get_removable_blocks doc) = .error .cycle ∧
    purge_deletion_order doc = fallback_order (get_removable_blocks doc) ∧
    (purge_deletion_order doc).Pairwise (fun a b => b.length ≤ a.length) ∧
    (∀ k, (purge_deletion_order doc).filter (fun s => s.length = k)
        = (get_removable_blocks doc).filter (fun s => s.length = k)) ∧
    (purge_deletion_order doc).Perm (get_removable_blocks doc) := by
  have herr : get_deletion_order doc (get_removable_blocks doc) = .error .cycle := by
    cases hr : get_deletion_order doc (get_removable_blocks doc) with
    | ok ord => exact absurd hr (get_deletion_order_cyclic_not_ok doc _ hcyc ord)
    | error e =>
        cases e
        · rfl
        · exact absurd hr (get_deletion_order_no_fuel_error doc _)
  have hfall : purge_deletion_order doc = fallback_order (get_removable_blocks doc) := by
    rw [purge_deletion_order, herr]
  refine ⟨herr, hfall, ?_, ?_, ?_⟩
  · rw [hfall, fallback_order]
    exact (pairwise_pySortBy (fun s : String => OrderDual.toDual s.length)
      (get_removable_blocks doc)).imp (fun h => OrderDual.toDual_le_toDual.mp h)
  · intro k
    rw [hfall, fallback_order, ← toDual_filter_eq _ k,
      filter_pySortBy (fun s : String => OrderDual.toDual s.length) _ (OrderDual.toDual k),
      toDual_filter_eq]
  · rw [hfall, fallback_order]
    exact pySortBy_perm _ _

/-- Concrete document for the C3 witness: mutual references AA⇄B. -/
def docCycle : Doc :=
  { layers := [], blocks := [("AA", [insertEntity "B"]), ("B", [insertEntity "AA"])],
    linetypes := [], styles := [], modelspace := [] }

theorem purge_fallback_on_cyclic_witness :
    (∃ n, Relation.TransGen
      (Edge (build_graph docCycle (get_removable_blocks docCycle))) n n) ∧
    get_deletion_order docCycle (get_removable_blocks docCycle) = .error .cycle ∧
    purge_deletion_order docCycle = ["AA", "B"] := by
  have e1 : Edge (build_graph docCycle (get_removable_blocks docCycle)) "AA" "B" := by
    decide
  have e2 : Edge (build_graph docCycle (get_removable_blocks docCycle)) "B" "AA" := by
    decide
  have hcyc : ∃ n, Relation.TransGen
      (Edge (build_graph docCycle (get_removable_blocks docCycle))) n n :=
    ⟨"AA", Relation.TransGen.tail (Relation.TransGen.single e1) e2⟩
  exact ⟨hcyc, (purge_fallback_on_cyclic docCycle hcyc).1, by decide⟩

end ResolverClaims

end Blocks

section MergePipeline

/-- The entity contents of a named block, for exploding. -/
def blockContents (blocks : List (String × List Entity)) (name : String) : List Entity :=
  ((blocks.find? (fun p => p.1 == name)).map (·.2)).getD []

/-- One sweep of the `for entity in list(msp)` loop of `explode_drawing`
(dxfapi.py lines 102-105): every INSERT of the snapshot is deleted and its
block contents enter the modelspace. -/
def explode_pass (blocks : List (String × List Entity)) (msp : List Entity) : List Entity :=
  msp.filter (fun e => e.dxftype ≠ "INSERT")
    ++ (msp.filter (fun e => e.dxftype = "INSERT")).flatMap
        (fun e => blockContents blocks e.blockName)

/-- `explode_drawing` (dxfapi.py lines 95-105).  The source loops while
any INSERT remains, without a bound (flagged in the spec as a
non-termination risk); the embedding indexes the loop by fuel, which no
theorem below consumes: they use inputs on which the loop exits. -/
def explode_drawing (blocks : List (String × List Entity)) : Nat → List Entity → List Entity
  | fuel, msp =>
    if msp.any (fun e => e.dxftype == "INSERT") then
      match fuel with
      | 0 => msp
      | f + 1 => explode_drawing blocks f (explode_pass blocks msp)
    else msp

/-- `change_logos` (dxfapi.py lines 196-235).  The source document is read
from a file by the external collaborator; the embedding takes the parsed
document.  Note the linetype copy (lines 217-219) calls
`doc_target.linetypes.add(linetype.dxf.name)` with the NAME only, so the
created linetype carries the collaborator's defaults — empty pattern and
empty description — not the source's; the text-style copy passes the
source font (the model's text styles always carry one). -/
def change_logos (fuel : Nat) (doc_source doc_target : Doc) : Doc :=
  let src1 : Doc :=
    { doc_source with
        modelspace := explode_drawing doc_source.blocks fuel doc_source.modelspace }
  let src : Doc := purge_blocks src1
  let msp1 := doc_target.modelspace.filter (fun e => e.dxftype ≠ "IMAGE")
  let lts := src.linetypes.foldl (fun acc lt =>
      if lt.name ∈ acc.map (·.name) then acc
      else acc ++ [{ name := lt.name, pattern := [], description := "" }]) doc_target.linetypes
  let sts := src.styles.foldl (fun acc ts =>
      if ts.name ∈ acc.map (·.name) then acc
      else acc ++ [{ name := ts.name, font := ts.font }]) doc_target.styles
  { doc_target with
      linetypes := lts, styles := sts, modelspace := msp1 ++ src.modelspace }

/-- Modelled from the spec: `ezdxf.revcloud.add_entity` (the external
ezdxf collaborator called at dxfapi.py line 380) synthesizes one new
annotation entity approximating a hand-drawn revision cloud along the
given vertex sequence with the given arc radius; it enters the modelspace
with the collaborator's defaults, and `create_revcloud` then assigns its
layer. -/
def revcloud_add_entity (points : List (Int × Int)) (arc_radius : ℚ) : Entity :=
  { dxftype := "LWPOLYLINE", layer := "0", color := 256, lineweight := -1,
    linetype := "BYLAYER", blockName := "", is_closed := true, vertices := points }

/-- `create_revcloud` (dxfapi.py lines 363-381).  Pass 1 records the layer
of EVERY entity on an eligible layer (the `all_layers.append` of line 370
runs before the closed-LWPOLYLINE test) but the vertices of closed
LWPOLYLINEs only, deleting those; pass 2 zips the two lists. -/
def create_revcloud (msp : List Entity) (revcloud_layers : List String)
    (arc_radius : ℚ) : List Entity :=
  let all_polylines := (msp.filter (fun e =>
      decide (e.layer ∈ revcloud_layers) && (e.dxftype == "LWPOLYLINE")
        && e.is_closed)).map (·.vertices)
  let all_layers := (msp.filter (fun e => decide (e.layer ∈ revcloud_layers))).map (·.layer)
  let msp1 := msp.filter (fun e =>
      !(decide (e.layer ∈ revcloud_layers) && (e.dxftype == "LWPOLYLINE") && e.is_closed))
  (all_polylines.zip all_layers).foldl
    (fun m pl => m ++ [{ revcloud_add_entity pl.1 arc_radius with layer := pl.2 }]) msp1

/-- A row of the external remap table (dxfapi.py line 318), with the
optional columns that `fillna` defaults. -/
structure RemapRow where
  currentLayer : String
  newLayer : Option String
  colorID : Option Int
  lineweight : Option ℚ
  lineType : Option String
  deriving Repr, DecidableEq

/-- A remap row after defaulting. -/
structure FilledRow where
  currentLayer : String
  newLayer : String
  colorID : Int
  lineweight : ℚ
  lineType : String
  deriving Repr, DecidableEq

/-- The `fillna` defaulting of dxfapi.py lines 334-337. -/
def fill_defaults (r : RemapRow) : FilledRow :=
  { currentLayer := r.currentLayer,
    newLayer := r.newLayer.getD "fallback",
    colorID := r.colorID.getD 256,
    lineweight := r.lineweight.getD 0,
    lineType := r.lineType.getD "continuous" }

/-- The remap driver of `adjust_layer` (dxfapi.py lines 331-348): rows are
filtered to source layers present in the document and defaulted; for each
row's source layer, in table order, the FIRST row matching that layer
(pandas `.values[0]`) drives `create_layer`, `change_layer`,
`change_lineweight`.  The defaulted `lineType` column is never applied. -/
def apply_remap_table (table : List RemapRow) (doc : Doc) : Doc :=
  let layers := list_current_layers doc
  let rows := (table.filter (fun r => decide (r.currentLayer ∈ layers))).map fill_defaults
  rows.foldl (fun d r0 =>
    match rows.find? (fun r => r.currentLayer == r0.currentLayer) with
    | some row =>
        let d1 := create_layer d row.newLayer row.colorID
        let d2 := { d1 with modelspace := change_layer d1.modelspace r0.currentLayer row.newLayer }
        change_lineweight d2 row.newLayer row.lineweight
    | none => d) doc

/-- The per-entity styling reset to BYLAYER (dxfapi.py lines 350-353). -/
def reset_entity_styling (doc : Doc) : Doc :=
  { doc with modelspace := doc.modelspace.map (fun e =>
      { e with color := 256, lineweight := -1, linetype := "BYLAYER" }) }

/-- The per-document body of `adjust_layer` (dxfapi.py lines 324-357):
explode, purge, prune, remap, styling reset, logo merge, prune, cloud
reconstruction.  Directory walking, the spreadsheet load and persisting
are the external collaborators; the parsed logo document and table are
taken as arguments. -/
def process_document (fuel : Nat) (logo : Doc) (table : List RemapRow)
    (revcloud_layers : List String) (arc_radius : ℚ) (doc0 : Doc) : Doc :=
  let d1 := { doc0 with modelspace := explode_drawing doc0.blocks fuel doc0.modelspace }
  let d2 := purge_blocks d1
  let d3 := remove_unused_layers d2
  let d4 := apply_remap_table table d3
  let d5 := reset_entity_styling d4
  let d6 := change_logos fuel logo d5
  let d7 := remove_unused_layers d6
  { d7 with modelspace := create_revcloud d7.modelspace revcloud_layers arc_radius }

end MergePipeline

section PipelineLemmas

theorem foldl_delete_block_fields : ∀ (l : List String) (d : Doc),
    (l.foldl delete_block d).modelspace = d.modelspace ∧
    (l.foldl delete_block d).linetypes = d.linetypes ∧
    (l.foldl delete_block d).styles = d.styles ∧
    (l.foldl delete_block d).layers = d.layers := by
  intro l
  induction l with
  | nil => exact fun d => ⟨rfl, rfl, rfl, rfl⟩
  | cons a as ih =>
      intro d
      simpa [List.foldl_cons, delete_block] using ih (delete_block d a)

theorem purge_blocks_modelspace (d : Doc) :
    (purge_blocks d).modelspace = d.modelspace :=
  (foldl_delete_block_fields _ d).1

theorem purge_blocks_linetypes (d : Doc) :
    (purge_blocks d).linetypes = d.linetypes :=
  (foldl_delete_block_fields _ d).2.1

theorem mem_foldl_append {α β : Type} (f : β → α) (l : List β) (m0 : List α)
    (x : α) (hx : x ∈ m0) : x ∈ l.foldl (fun m p => m ++ [f p]) m0 := by
  induction l generalizing m0 with
  | nil => exact hx
  | cons a as ih => exact ih (m0 ++ [f a]) (List.mem_append_left _ hx)

theorem explode_drawing_no_insert (blocks : List (String × List Entity))
    (fuel : Nat) (msp : List Entity) (h : ∀ e ∈ msp, e.dxftype ≠ "INSERT") :
    explode_drawing blocks fuel msp = msp := by
  rw [explode_drawing.eq_def]
  have hany : msp.any (fun e => e.dxftype == "INSERT") = false := by
    rw [List.any_eq_false]
    intro e he
    simpa using h e he
  simp [hany]

theorem mem_used_of_entity_layer (doc : Doc) (x : String)
    (h : x ∈ doc.modelspace.map (·.layer)) : x ∈ used_layer_names doc := by
  have h1 : x ∈ used_with_defpoints doc := by
    rw [used_with_defpoints]
    split
    · exact h
    · exact List.mem_append_left _ h
  rw [used_layer_names]
  split
  · exact h1
  · exact List.mem_append_left _ h1

theorem change_logos_layers (fuel : Nat) (src tgt : Doc) :
    (change_logos fuel src tgt).layers = tgt.layers := rfl

end PipelineLemmas

section RevcloudClaim

/-- A non-boundary entity sitting on an eligible layer. -/
def circleL1 : Entity :=
  { dxftype := "CIRCLE", layer := "L1", color := 256, lineweight := -1,
    linetype := "BYLAYER", blockName := "", is_closed := false, vertices := [] }

/-- A closed polyline boundary on eligible layer "L2". -/
def boundaryL2 : Entity :=
  { dxftype := "LWPOLYLINE", layer := "L2", color := 256, lineweight := -1,
    linetype := "BYLAYER", blockName := "", is_closed := true,
    vertices := [(0, 0), (4, 0), (4, 4), (0, 4)] }

/-- C2 (code bug): pass 1 of `create_revcloud` appends the layer of EVERY
entity on an eligible layer (dxfapi.py line 370, before the
closed-LWPOLYLINE test) but records vertices only for closed boundaries,
so the zip of pass 2 misaligns: with a circle on "L1" listed before the
boundary on "L2", the single reconstructed cloud is assigned "L1" — not
"L2", the layer its boundary was recorded from. -/
theorem create_revcloud_misassigns_layer :
    create_revcloud [circleL1, boundaryL2] ["L1", "L2"] 6
      = [circleL1,
         { revcloud_add_entity [(0, 0), (4, 0), (4, 4), (0, 4)] 6 with layer := "L1" }] ∧
    boundaryL2.layer = "L2" ∧ circleL1.dxftype = "CIRCLE" ∧ ("L1" : String) ≠ "L2" :=
  ⟨by decide, rfl, rfl, by decide⟩

end RevcloudClaim

section LayerExistenceClaim

/-- C4 (amended): a non-image entity of the target that lies on an
existing layer still lies on an existing layer after the logo merge and
the prune that follows it; the full invariant fails only for the entities
the merge copies in (see the counterexample). -/
theorem merge_keeps_existing_entity_layers (fuel : Nat) (logo doc : Doc)
    (e : Entity) (he : e ∈ doc.modelspace) (him : e.dxftype ≠ "IMAGE")
    (hl : e.layer ∈ list_current_layers doc) :
    e ∈ (remove_unused_layers (change_logos fuel logo doc)).modelspace ∧
    e.layer ∈ list_current_layers (remove_unused_layers (change_logos fuel logo doc)) := by
  have hmem : e ∈ (change_logos fuel logo doc).modelspace := by
    apply List.mem_append_left
    exact List.mem_filter.mpr ⟨he, by simpa using him⟩
  constructor
  · rw [remove_unused_layers_modelspace]
    exact hmem
  · have hused : e.layer ∈ used_layer_names (change_logos fuel logo doc) :=
      mem_used_of_entity_layer _ _ (List.mem_map_of_mem (·.layer) hmem)
    rcases List.mem_map.mp hl with ⟨l, hlm, hln⟩
    have hl' : l ∈ (change_logos fuel logo doc).layers := by
      rw [change_logos_layers]
      exact hlm
    rw [← hln, list_current_layers]
    have hlf : l ∈ (remove_unused_layers (change_logos fuel logo doc)).layers := by
      rw [remove_unused_layers_eq_filter]
      exact List.mem_filter.mpr ⟨hl', by simpa [hln] using hused⟩
    exact List.mem_map_of_mem (fun x : Layer => x.name) hlf

/-- An entity of the canonical logo document, on a layer of its own. -/
def logoEntity : Entity :=
  { dxftype := "LINE", layer := "LOGO", color := 5, lineweight := 30,
    linetype := "DASHED", blockName := "", is_closed := false, vertices := [] }

/-- The canonical logo source document of the witnesses. -/
def logoDoc : Doc :=
  { layers := [{ name := "LOGO", color := 1, lineweight := 0 }], blocks := [],
    linetypes := [], styles := [], modelspace := [logoEntity] }

/-- A plain input document with only the reserved layers. -/
def plainDoc : Doc :=
  { layers := [{ name := "0", color := 7, lineweight := 0 },
               { name := "Defpoints", color := 7, lineweight := 0 }],
    blocks := [], linetypes := [], styles := [], modelspace := [] }

/-- An input document holding the circle on an existing layer "L1". -/
def docWithCircle : Doc :=
  { layers := [{ name := "0", color := 7, lineweight := 0 },
               { name := "Defpoints", color := 7, lineweight := 0 },
               { name := "L1", color := 7, lineweight := 0 }],
    blocks := [], linetypes := [], styles := [], modelspace := [circleL1] }

theorem merge_keeps_existing_entity_layers_witness :
    circleL1 ∈ docWithCircle.modelspace ∧
    circleL1 ∈ (remove_unused_layers (change_logos 0 logoDoc docWithCircle)).modelspace ∧
    circleL1.layer ∈ list_current_layers
      (remove_unused_layers (change_logos 0 logoDoc docWithCircle)) := by
  refine ⟨by decide, ?_, ?_⟩
  · exact (merge_keeps_existing_entity_layers 0 logoDoc docWithCircle circleL1
      (by decide) (by decide) (by decide)).1
  · exact (merge_keeps_existing_entity_layers 0 logoDoc docWithCircle circleL1
      (by decide) (by decide) (by decide)).2

/-- C4 counterexample: after a full successful pass, the entity copied in
from the logo source still references layer "LOGO", which does not exist
in the processed document — the merge copies entities but no layers, and
the subsequent prune only deletes layers, never creates them. -/
theorem pipeline_copied_entity_layer_missing :
    logoEntity ∈ (process_document 0 logoDoc [] [] 6 plainDoc).modelspace ∧
    logoEntity.layer ∉ list_current_layers (process_document 0 logoDoc [] [] 6 plainDoc) := by
  decide

end LayerExistenceClaim

section LinetypeClaim

theorem ltfold_names_mono : ∀ (lts acc : List Linetype) (x : String),
    x ∈ acc.map (·.name) →
    x ∈ (lts.foldl (fun acc lt =>
        if lt.name ∈ acc.map (·.name) then acc
        else acc ++ [{ name := lt.name, pattern := [], description := "" }]) acc).map (·.name) := by
  intro lts
  induction lts with
  | nil => exact fun acc x h => h
  | cons a as ih =>
      intro acc x h
      rw [List.foldl_cons]
      by_cases hc : a.name ∈ acc.map (·.name)
      · rw [if_pos hc]
        exact ih acc x h
      · rw [if_neg hc]
        apply ih
        rw [List.map_append]
        exact List.mem_append_left _ h

theorem ltfold_src_names : ∀ (lts acc : List Linetype) (lt : Linetype), lt ∈ lts →
    lt.name ∈ (lts.foldl (fun acc lt =>
        if lt.name ∈ acc.map (·.name) then acc
        else acc ++ [{ name := lt.name, pattern := [], description := "" }]) acc).map (·.name) := by
  intro lts
  induction lts with
  | nil => exact fun acc lt h => absurd h (List.not_mem_nil lt)
  | cons a as ih =>
      intro acc lt h
      rw [List.foldl_cons]
      rcases List.mem_cons.mp h with rfl | h'
      · by_cases hc : lt.name ∈ acc.map (·.name)
        · rw [if_pos hc]
          exact ltfold_names_mono as acc lt.name hc
        · rw [if_neg hc]
          apply ltfold_names_mono
          rw [List.map_append]
          exact List.mem_append_right _ (by simp)
      · by_cases hc : a.name ∈ acc.map (·.name)
        · rw [if_pos hc]
          exact ih acc lt h'
        · rw [if_neg hc]
          exact ih _ lt h'

theorem ltfold_members : ∀ (lts acc : List Linetype) (x : Linetype),
    x ∈ lts.foldl (fun acc lt =>
        if lt.name ∈ acc.map (·.name) then acc
        else acc ++ [{ name := lt.name, pattern := [], description := "" }]) acc →
    x ∈ acc ∨ (x.pattern = [] ∧ x.description = "") := by
  intro lts
  induction lts with
  | nil => exact fun acc x h => Or.inl h
  | cons a as ih =>
      intro acc x h
      rw [List.foldl_cons] at h
      by_cases hc : a.name ∈ acc.map (·.name)
      · rw [if_pos hc] at h
        exact ih acc x h
      · rw [if_neg hc] at h
        rcases ih _ x h with hx | hx
        · rcases List.mem_append.mp hx with hx' | hx'
          · exact Or.inl hx'
          · have : x = { name := a.name, pattern := [], description := "" } := by
              simpa using hx'
            subst this
            exact Or.inr ⟨rfl, rfl⟩
        · exact Or.inr hx

/-- C6 (amended): for every line-style of the logo source absent by name
in the target, the merge creates a line-style of that name in the target —
but carrying the collaborator's defaults (empty pattern, empty
description), because the copy passes the name only, not the source's
pattern and description. -/
theorem change_logos_linetype_spec (fuel : Nat) (src tgt : Doc) (lt : Linetype)
    (hlt : lt ∈ src.linetypes) (habs : lt.name ∉ tgt.linetypes.map (·.name)) :
    ∃ created ∈ (change_logos fuel src tgt).linetypes,
      created.name = lt.name ∧ created.pattern = [] ∧ created.description = "" := by
  have hline : (change_logos fuel src tgt).linetypes
      = src.linetypes.foldl (fun acc lt =>
          if lt.name ∈ acc.map (·.name) then acc
          else acc ++ [{ name := lt.name, pattern := [], description := "" }])
        tgt.linetypes := by
    have h0 : (change_logos fuel src tgt).linetypes
        = (purge_blocks { src with
            modelspace := explode_drawing src.blocks fuel src.modelspace }).linetypes.foldl
          (fun acc lt =>
            if lt.name ∈ acc.map (·.name) then acc
            else acc ++ [{ name := lt.name, pattern := [], description := "" }])
          tgt.linetypes := rfl
    rw [h0, purge_blocks_linetypes]
  rw [hline]
  have hname := ltfold_src_names src.linetypes tgt.linetypes lt hlt
  rcases List.mem_map.mp hname with ⟨created, hcm, hcn⟩
  rcases ltfold_members src.linetypes tgt.linetypes created hcm with hin | hdef
  · have : lt.name ∈ tgt.linetypes.map (·.name) := by
      rw [← hcn]
      exact List.mem_map_of_mem (fun x : Linetype => x.name) hin
    exact absurd this habs
  · exact ⟨created, hcm, hcn, hdef.1, hdef.2⟩

/-- A source linetype whose pattern/description are not the defaults. -/
def srcLinetype : Linetype :=
  { name := "DASHED", pattern := [5, -5], description := "dashed line" }

/-- A logo document carrying only the linetype definition. -/
def logoLtDoc : Doc :=
  { layers := [], blocks := [], linetypes := [srcLinetype], styles := [], modelspace := [] }

/-- A target with an empty linetype table. -/
def emptyDoc : Doc :=
  { layers := [], blocks := [], linetypes := [], styles := [], modelspace := [] }

theorem change_logos_linetype_spec_witness :
    srcLinetype ∈ logoLtDoc.linetypes ∧
    srcLinetype.name ∉ emptyDoc.linetypes.map (·.name) ∧
    ∃ created ∈ (change_logos 0 logoLtDoc emptyDoc).linetypes,
      created.name = srcLinetype.name ∧ created.pattern = [] ∧ created.description = "" :=
  ⟨by decide, by decide,
    change_logos_linetype_spec 0 logoLtDoc emptyDoc srcLinetype (by decide) (by decide)⟩

/-- C6 counterexample: the linetype the merge creates carries the empty
default pattern and description, not the source's `[5, -5]` /
"dashed line" — the claim's "same pattern and description as the source
definition" fails. -/
theorem change_logos_linetype_not_copied :
    (change_logos 0 logoLtDoc emptyDoc).linetypes
      = [{ name := "DASHED", pattern := [], description := "" }] ∧
    srcLinetype.pattern = [5, -5] ∧ ([] : List ℚ) ≠ [5, -5] :=
  ⟨by decide, rfl, by decide⟩

end LinetypeClaim

section StylingClaim

theorem mem_create_revcloud (msp : List Entity) (rl : List String) (r : ℚ)
    (e : Entity) (he : e ∈ msp)
    (hne : ¬(e.dxftype = "LWPOLYLINE" ∧ e.is_closed = true ∧ e.layer ∈ rl)) :
    e ∈ create_revcloud msp rl r := by
  have hb : (!(decide (e.layer ∈ rl) && (e.dxftype == "LWPOLYLINE") && e.is_closed)) = true := by
    by_cases h1 : e.dxftype = "LWPOLYLINE"
    · by_cases h3 : e.layer ∈ rl
      · have h2 : e.is_closed = false := by
          cases hc : e.is_closed
          · rfl
          · exact absurd ⟨h1, hc, h3⟩ hne
        simp [h2]
      · simp [h3]
    · simp [h1]
  have hmsp1 : e ∈ msp.filter (fun x =>
      !(decide (x.layer ∈ rl) && (x.dxftype == "LWPOLYLINE") && x.is_closed)) :=
    List.mem_filter.mpr ⟨he, hb⟩
  exact mem_foldl_append
    (fun pl : List (Int × Int) × String => { revcloud_add_entity pl.1 r with layer := pl.2 })
    _ _ e hmsp1

theorem mem_change_logos_of_mem_source (fuel : Nat) (src tgt : Doc) (e : Entity)
    (he : e ∈ src.modelspace) (hins : ∀ e' ∈ src.modelspace, e'.dxftype ≠ "INSERT") :
    e ∈ (change_logos fuel src tgt).modelspace := by
  have h0 : (change_logos fuel src tgt).modelspace
      = tgt.modelspace.filter (fun x => x.dxftype ≠ "IMAGE")
        ++ (purge_blocks { src with
            modelspace := explode_drawing src.blocks fuel src.modelspace }).modelspace := rfl
  rw [h0, purge_blocks_modelspace]
  have h1 : ({ src with
      modelspace := explode_drawing src.blocks fuel src.modelspace } : Doc).modelspace
      = src.modelspace := by
    simpa using explode_drawing_no_insert src.blocks fuel src.modelspace hins
  rw [h1]
  exact List.mem_append_right _ he

/-- C10: the styling reset to BYLAYER runs before the logo merge, so an
entity copied in from the logo source survives the whole per-document pass
unchanged — keeping its explicit color, line-weight and line-style — as
long as it is not itself a closed boundary on a cloud-eligible layer; the
output may therefore contain entities whose styling is not
inherit-from-layer (see the witness). -/
theorem logo_styling_survives_pipeline (fuel : Nat) (logo : Doc)
    (table : List RemapRow) (revcloud_layers : List String) (arc_radius : ℚ)
    (doc : Doc) (e : Entity) (he : e ∈ logo.modelspace)
    (hins : ∀ e' ∈ logo.modelspace, e'.dxftype ≠ "INSERT")
    (hne : ¬(e.dxftype = "LWPOLYLINE" ∧ e.is_closed = true ∧ e.layer ∈ revcloud_layers)) :
    e ∈ (process_document fuel logo table revcloud_layers arc_radius doc).modelspace := by
  have h0 : (process_document fuel logo table revcloud_layers arc_radius doc).modelspace
      = create_revcloud (remove_unused_layers (change_logos fuel logo
          (reset_entity_styling (apply_remap_table table (remove_unused_layers (purge_blocks
            { doc with
                modelspace := explode_drawing doc.blocks fuel doc.modelspace })))))).modelspace
          revcloud_layers arc_radius := rfl
  rw [h0]
  apply mem_create_revcloud _ _ _ _ _ hne
  rw [remove_unused_layers_modelspace]
  exact mem_change_logos_of_mem_source fuel logo _ e he hins

theorem logo_styling_survives_pipeline_witness :
    logoEntity ∈ logoDoc.modelspace ∧
    logoEntity ∈ (process_document 0 logoDoc [] [] 6 plainDoc).modelspace ∧
    logoEntity.color = 5 ∧ logoEntity.lineweight = 30 ∧
    logoEntity.linetype = "DASHED" ∧ (5 : Int) ≠ 256 :=
  ⟨by decide,
    logo_styling_survives_pipeline 0 logoDoc [] [] 6 plainDoc logoEntity
      (by decide) (by decide) (by decide),
    rfl, rfl, rfl, by decide⟩

end StylingClaim

end Dxf
